import Mathlib

/-!
Verification of the passphrase-derived file encryption core
(`src/encryptor/file_encryptor.py`) and of the flight-selection
algorithms (`alg1/select.py`).

Bytes are modelled as `Nat`, byte strings as `List Nat`.  The AES block
primitive and the PBKDF2 primitive are external library collaborators in
the source (`cryptography.hazmat`), so they are taken as parameters; the
CBC chaining, the PKCS7 padding, the envelope layout and the key-derivation
parameter choices are translated from the source.
-/

/-- UTF-8 encoding of one Unicode code point (models Python `str.encode('utf-8')`
at the level of a single character). -/
def utf8EncodeChar (c : Nat) : List Nat :=
  if c < 0x80 then [c]
  else if c < 0x800 then [0xC0 ||| (c >>> 6), 0x80 ||| (c &&& 0x3F)]
  else if c < 0x10000 then
    [0xE0 ||| (c >>> 12), 0x80 ||| ((c >>> 6) &&& 0x3F), 0x80 ||| (c &&& 0x3F)]
  else
    [0xF0 ||| (c >>> 18), 0x80 ||| ((c >>> 12) &&& 0x3F),
     0x80 ||| ((c >>> 6) &&& 0x3F), 0x80 ||| (c &&& 0x3F)]

/-- UTF-8 bytes of a string (models Python `s.encode('utf-8')`). -/
def utf8Bytes (s : String) : List Nat :=
  (s.data.map (fun c => utf8EncodeChar c.toNat)).flatten

/-- Hash algorithms passed to the KDF; the source always uses `hashes.SHA256()`. -/
inductive HashAlg where
  | SHA256
deriving DecidableEq

/-- Parameters handed to the `PBKDF2HMAC` collaborator in `_derive_key`. -/
structure KDFParams where
  algorithm : HashAlg
  length : Nat
  salt : List Nat
  iterations : Nat

/-- The state of a `FileEncryptor` object: `__init__` stores `email` and
`passphrase` unchanged.  `Option` models Python values that may be `None`. -/
structure FileEncryptor where
  email : Option String
  passphrase : Option String
deriving DecidableEq

/-- Errors raised while deriving the key: calling `.encode('utf-8')` on a
`None` email or passphrase raises `AttributeError` in Python. -/
inductive DeriveError where
  | noneEmail
  | nonePassphrase
deriving DecidableEq

/-- FileEncryptor._derive_key, parametrised by the external `PBKDF2HMAC.derive`
primitive (a function of the KDF parameters and the password bytes).  The
method reads `self.email` and `self.passphrase`, mutates nothing, and calls
PBKDF2 with SHA-256, 32-byte length, the UTF-8 email as salt and 65536
iterations.  The object state after the call is returned alongside the key to
make the (absent) mutation explicit. -/
def derive_key (pbkdf2 : KDFParams → List Nat → List Nat) (self : FileEncryptor) :
    Except DeriveError (List Nat × FileEncryptor) :=
  match self.email with
  | none => Except.error DeriveError.noneEmail
  | some email =>
    match self.passphrase with
    | none => Except.error DeriveError.nonePassphrase
    | some passphrase =>
      Except.ok
        (pbkdf2 ⟨HashAlg.SHA256, 32, utf8Bytes email, 65536⟩ (utf8Bytes passphrase),
         self)

/-- FileEncryptor._pad_data: PKCS7 padding.
`block_size = algorithms.AES.block_size // 8 = 16`;
`padding_length = block_size - (len(data) % block_size)`;
append `padding_length` bytes of value `padding_length`. -/
def pad_data (data : List Nat) : List Nat :=
  let block_size := 16
  let padding_length := block_size - data.length % block_size
  data ++ List.replicate padding_length padding_length

/-- Python slice `data[:-p]` for a non-negative `p`: empty when `p = 0`
(`data[:0]`), otherwise the list without its last `p` elements (empty when
`p` is at least the length). -/
def pySliceDropLast (data : List Nat) (p : Nat) : List Nat :=
  if p = 0 then [] else data.take (data.length - p)

/-- FileEncryptor._unpad_data: `padding_length = data[-1]; return data[:-padding_length]`.
`data[-1]` raises `IndexError` on empty input, modelled by `none`.  No
validation of the padding value or of the padding bytes is performed. -/
def unpad_data (data : List Nat) : Option (List Nat) :=
  match data.getLast? with
  | none => none
  | some padding_length => some (pySliceDropLast data padding_length)

/-- Byte-wise XOR of two blocks (the CBC chaining operation of the AES-CBC
collaborator). -/
def xorBlock (a b : List Nat) : List Nat :=
  List.zipWith (fun x y => x ^^^ y) a b

/-- Fuel-indexed splitting of a byte string into consecutive 16-byte blocks. -/
def chunksAux : Nat → List Nat → List (List Nat)
  | 0, _ => []
  | _ + 1, [] => []
  | fuel + 1, x :: xs => ((x :: xs).take 16) :: chunksAux fuel ((x :: xs).drop 16)

/-- Split a byte string into consecutive 16-byte blocks (the block structure
on which the AES-CBC collaborator operates). -/
def chunks (l : List Nat) : List (List Nat) :=
  chunksAux l.length l

/-- CBC-mode encryption over an abstract block cipher `E` (the AES-256
permutation under the derived key): each plaintext block is XORed with the
previous ciphertext block (the IV for the first) before being enciphered. -/
def cbc_encrypt (E : List Nat → List Nat) (iv : List Nat) : List (List Nat) → List (List Nat)
  | [] => []
  | b :: bs =>
    let c := E (xorBlock iv b)
    c :: cbc_encrypt E c bs

/-- CBC-mode decryption over an abstract block decipher `D`. -/
def cbc_decrypt (D : List Nat → List Nat) (iv : List Nat) : List (List Nat) → List (List Nat)
  | [] => []
  | c :: cs => xorBlock iv (D c) :: cbc_decrypt D c cs

/-- FileEncryptor.encrypt_file, with file I/O abstracted to byte strings and
the random IV from `secrets.token_bytes(16)` passed as a parameter: the
envelope written to the output file is the IV followed by the AES-CBC
encryption of the PKCS7-padded file data. -/
def encrypt_file (E : List Nat → List Nat) (iv : List Nat) (file_data : List Nat) : List Nat :=
  iv ++ (cbc_encrypt E iv (chunks (pad_data file_data))).flatten

/-- Failures of `decrypt_file`:
`invalidIVSize` — `modes.CBC(iv)` rejects an IV that is not 16 bytes (the
file held fewer than 16 bytes);
`notBlockAligned` — `decryptor.finalize()` rejects ciphertext whose length is
not a multiple of 16;
`emptyData` — `data[-1]` in `_unpad_data` raises `IndexError` on an empty
decrypted buffer.  All are re-raised wrapped in a generic exception. -/
inductive DecryptError where
  | invalidIVSize
  | notBlockAligned
  | emptyData
deriving DecidableEq

/-- FileEncryptor.decrypt_file, with file I/O abstracted to byte strings:
`iv = f.read(16)` (the first at most 16 bytes), the rest is the ciphertext;
the cipher rejects a short IV and non-block-aligned ciphertext; the decrypted
data is unpadded with `_unpad_data` and returned. -/
def decrypt_file (D : List Nat → List Nat) (envelope : List Nat) :
    Except DecryptError (List Nat) :=
  let iv := envelope.take 16
  let encrypted_data := envelope.drop 16
  if iv.length ≠ 16 then Except.error DecryptError.invalidIVSize
  else if encrypted_data.length % 16 ≠ 0 then Except.error DecryptError.notBlockAligned
  else
    match unpad_data ((cbc_decrypt D iv (chunks encrypted_data)).flatten) with
    | none => Except.error DecryptError.emptyData
    | some unpadded => Except.ok unpadded

-- ===== helper lemmas: padding =====

lemma pad_data_eq (data : List Nat) :
    pad_data data =
      data ++ List.replicate (16 - data.length % 16) (16 - data.length % 16) := rfl

lemma pad_data_length (data : List Nat) :
    (pad_data data).length = 16 * (data.length / 16 + 1) := by
  rw [pad_data_eq]
  simp only [List.length_append, List.length_replicate]
  have h := Nat.div_add_mod data.length 16
  have h2 : data.length % 16 < 16 := Nat.mod_lt _ (by omega)
  omega

lemma replicate_getLast? (k v : Nat) : (List.replicate (k + 1) v).getLast? = some v := by
  induction k with
  | zero => rfl
  | succ n ih =>
    rw [List.replicate_succ]
    rw [List.getLast?_cons]
    rw [List.replicate_succ] at ih ⊢
    simp only [List.getLast?_cons] at ih ⊢
    exact ih

lemma unpad_pad (data : List Nat) : unpad_data (pad_data data) = some data := by
  have hmod : data.length % 16 < 16 := Nat.mod_lt _ (by omega)
  obtain ⟨k, hk⟩ : ∃ k, 16 - data.length % 16 = k + 1 := ⟨15 - data.length % 16, by omega⟩
  rw [unpad_data, pad_data_eq, hk, List.getLast?_append, replicate_getLast?]
  show some (pySliceDropLast (data ++ List.replicate (k + 1) (k + 1)) (k + 1)) = some data
  rw [pySliceDropLast, if_neg (Nat.succ_ne_zero k)]
  congr 1
  have hlen : (data ++ List.replicate (k + 1) (k + 1)).length - (k + 1) = data.length := by
    simp [List.length_append, List.length_replicate]
  rw [hlen]
  exact List.take_left data _

-- ===== helper lemmas: chunks =====

lemma chunksAux_congr :
    ∀ f1 : Nat, ∀ l : List Nat, ∀ f2 : Nat,
      l.length ≤ f1 → l.length ≤ f2 → chunksAux f1 l = chunksAux f2 l := by
  intro f1
  induction f1 with
  | zero =>
    intro l f2 h1 _
    have : l = [] := List.eq_nil_of_length_eq_zero (by omega)
    subst this
    cases f2 <;> rfl
  | succ f ih =>
    intro l f2 h1 h2
    cases l with
    | nil => cases f2 <;> rfl
    | cons x xs =>
      cases f2 with
      | zero => simp at h2
      | succ f2' =>
        show ((x :: xs).take 16) :: chunksAux f ((x :: xs).drop 16) =
             ((x :: xs).take 16) :: chunksAux f2' ((x :: xs).drop 16)
        congr 1
        apply ih
        · simp only [List.length_drop, List.length_cons]
          simp only [List.length_cons] at h1
          omega
        · simp only [List.length_drop, List.length_cons]
          simp only [List.length_cons] at h2
          omega

lemma chunks_block (b rest : List Nat) (hb : b.length = 16) :
    chunks (b ++ rest) = b :: chunks rest := by
  cases b with
  | nil => simp at hb
  | cons x xs =>
    have hb' : xs.length + 1 = 16 := by simpa using hb
    have hlen : ((x :: xs) ++ rest).length = 16 + rest.length := by
      simp only [List.length_append, List.length_cons]
      omega
    obtain ⟨f, hf⟩ : ∃ f, ((x :: xs) ++ rest).length = f + 1 := ⟨15 + rest.length, by omega⟩
    rw [chunks, hf]
    show ((x :: xs ++ rest).take 16) :: chunksAux f ((x :: xs ++ rest).drop 16) = _
    have ht : (x :: xs ++ rest).take 16 = x :: xs := by
      rw [show (16 : Nat) = (x :: xs).length from hb.symm]
      exact List.take_left _ _
    have hd : (x :: xs ++ rest).drop 16 = rest := by
      rw [show (16 : Nat) = (x :: xs).length from hb.symm]
      exact List.drop_left _ _
    rw [ht, hd]
    congr 1
    rw [chunks]
    exact chunksAux_congr f rest rest.length (by omega) (le_refl _)

lemma chunks_flatten (bs : List (List Nat)) (h : ∀ b ∈ bs, b.length = 16) :
    chunks bs.flatten = bs := by
  induction bs with
  | nil => rfl
  | cons b rest ih =>
    rw [List.flatten_cons, chunks_block b rest.flatten (h b (by simp))]
    rw [ih (fun x hx => h x (by simp [hx]))]

lemma flatten_chunks : ∀ f : Nat, ∀ l : List Nat, l.length ≤ f → (chunksAux f l).flatten = l := by
  intro f
  induction f with
  | zero =>
    intro l h
    have : l = [] := List.eq_nil_of_length_eq_zero (by omega)
    subst this
    rfl
  | succ f ih =>
    intro l h
    cases l with
    | nil => rfl
    | cons x xs =>
      show (((x :: xs).take 16) :: chunksAux f ((x :: xs).drop 16)).flatten = x :: xs
      rw [List.flatten_cons]
      rw [ih ((x :: xs).drop 16)
        (by simp only [List.length_drop, List.length_cons]
            simp only [List.length_cons] at h
            omega)]
      exact List.take_append_drop 16 (x :: xs)

lemma chunks_blocks_of_aligned :
    ∀ n : Nat, ∀ l : List Nat, l.length = 16 * n →
      (chunks l).length = n ∧ ∀ b ∈ chunks l, b.length = 16 := by
  intro n
  induction n with
  | zero =>
    intro l h
    have : l = [] := List.eq_nil_of_length_eq_zero (by omega)
    subst this
    exact ⟨rfl, by simp [chunks, chunksAux]⟩
  | succ n ih =>
    intro l h
    have h16 : 16 ≤ l.length := by omega
    have htake : (l.take 16).length = 16 := by
      simp [List.length_take]
      omega
    have hdecomp : l = l.take 16 ++ l.drop 16 := (List.take_append_drop 16 l).symm
    have hdroplen : (l.drop 16).length = 16 * n := by
      simp only [List.length_drop]
      omega
    obtain ⟨ihlen, ihblocks⟩ := ih (l.drop 16) hdroplen
    constructor
    · conv_lhs => rw [hdecomp]
      rw [chunks_block _ _ htake]
      simp [ihlen]
    · intro b hb
      conv at hb => rw [hdecomp]
      rw [chunks_block _ _ htake] at hb
      rcases List.mem_cons.mp hb with h1 | h2
      · rw [h1]; exact htake
      · exact ihblocks b h2

-- ===== helper lemmas: CBC =====

lemma xorBlock_length (a b : List Nat) : (xorBlock a b).length = min a.length b.length := by
  simp [xorBlock, List.length_zipWith]

lemma xorBlock_cancel : ∀ a b : List Nat, a.length = b.length → xorBlock a (xorBlock a b) = b := by
  intro a
  induction a with
  | nil =>
    intro b h
    have : b = [] := List.eq_nil_of_length_eq_zero (by simpa using h.symm)
    subst this
    rfl
  | cons x xs ih =>
    intro b h
    cases b with
    | nil => simp at h
    | cons y ys =>
      have htail : xorBlock xs (xorBlock xs ys) = ys := ih ys (by simpa using h)
      simp only [xorBlock, List.zipWith_cons_cons] at htail ⊢
      rw [Nat.xor_cancel_left, htail]

lemma cbc_encrypt_blocks (E : List Nat → List Nat)
    (hE : ∀ b : List Nat, b.length = 16 → (E b).length = 16) :
    ∀ bs : List (List Nat), ∀ iv : List Nat, iv.length = 16 → (∀ b ∈ bs, b.length = 16) →
      (cbc_encrypt E iv bs).length = bs.length ∧ ∀ c ∈ cbc_encrypt E iv bs, c.length = 16 := by
  intro bs
  induction bs with
  | nil => intro iv _ _; exact ⟨rfl, by simp [cbc_encrypt]⟩
  | cons b rest ih =>
    intro iv hiv hblocks
    have hxlen : (xorBlock iv b).length = 16 := by
      rw [xorBlock_length, hiv, hblocks b (by simp)]
      simp
    have hclen : (E (xorBlock iv b)).length = 16 := hE _ hxlen
    obtain ⟨ihlen, ihmem⟩ :=
      ih (E (xorBlock iv b)) hclen (fun x hx => hblocks x (by simp [hx]))
    constructor
    · show (E (xorBlock iv b) :: cbc_encrypt E (E (xorBlock iv b)) rest).length = _
      simp [ihlen]
    · intro c hc
      show c.length = 16
      rcases List.mem_cons.mp hc with h1 | h2
      · rw [h1]; exact hclen
      · exact ihmem c h2

lemma flatten_blocks_length :
    ∀ bs : List (List Nat), (∀ b ∈ bs, b.length = 16) → bs.flatten.length = 16 * bs.length := by
  intro bs
  induction bs with
  | nil => intro _; rfl
  | cons b rest ih =>
    intro h
    rw [List.flatten_cons, List.length_append, h b (by simp),
        ih (fun x hx => h x (by simp [hx]))]
    simp [List.length_cons]
    ring

lemma cbc_roundtrip (E D : List Nat → List Nat)
    (hE : ∀ b : List Nat, b.length = 16 → (E b).length = 16)
    (hED : ∀ b : List Nat, b.length = 16 → D (E b) = b) :
    ∀ bs : List (List Nat), ∀ iv : List Nat, iv.length = 16 → (∀ b ∈ bs, b.length = 16) →
      cbc_decrypt D iv (cbc_encrypt E iv bs) = bs := by
  intro bs
  induction bs with
  | nil => intro iv _ _; rfl
  | cons b rest ih =>
    intro iv hiv hblocks
    have hxlen : (xorBlock iv b).length = 16 := by
      rw [xorBlock_length, hiv, hblocks b (by simp)]
      simp
    show xorBlock iv (D (E (xorBlock iv b))) ::
        cbc_decrypt D (E (xorBlock iv b)) (cbc_encrypt E (E (xorBlock iv b)) rest) = b :: rest
    rw [hED _ hxlen, xorBlock_cancel iv b (by rw [hiv, hblocks b (by simp)]),
        ih (E (xorBlock iv b)) (hE _ hxlen) (fun x hx => hblocks x (by simp [hx]))]

-- ===== claim theorems: encryption core =====

/-- C1: for every byte sequence `p` (including the empty sequence) and every
block cipher pair `(E, D)` that is a 16-byte block permutation and its
inverse (the AES-256 primitive under the derived key), decrypting the
envelope produced by encrypting `p` returns exactly `p`. -/
theorem C1_roundtrip (E D : List Nat → List Nat)
    (hE : ∀ b : List Nat, b.length = 16 → (E b).length = 16)
    (hED : ∀ b : List Nat, b.length = 16 → D (E b) = b)
    (iv : List Nat) (hiv : iv.length = 16) (p : List Nat) :
    decrypt_file D (encrypt_file E iv p) = Except.ok p := by
  have hpad := pad_data_length p
  obtain ⟨hcount, hblocks⟩ := chunks_blocks_of_aligned (p.length / 16 + 1) (pad_data p) hpad
  obtain ⟨hclen, hcblocks⟩ := cbc_encrypt_blocks E hE (chunks (pad_data p)) iv hiv hblocks
  have hflat := flatten_blocks_length _ hcblocks
  set ct := (cbc_encrypt E iv (chunks (pad_data p))).flatten with hct
  have htake : (iv ++ ct).take 16 = iv := by rw [← hiv]; exact List.take_left iv ct
  have hdrop : (iv ++ ct).drop 16 = ct := by rw [← hiv]; exact List.drop_left iv ct
  have hchu : chunks ct = cbc_encrypt E iv (chunks (pad_data p)) := chunks_flatten _ hcblocks
  have hdec : cbc_decrypt D iv (chunks ct) = chunks (pad_data p) := by
    rw [hchu]; exact cbc_roundtrip E D hE hED _ iv hiv hblocks
  have hflatchunks : (chunks (pad_data p)).flatten = pad_data p :=
    flatten_chunks (pad_data p).length (pad_data p) (le_refl _)
  have hmod0 : ct.length % 16 = 0 := by
    rw [hflat, hclen]
    simp [Nat.mul_mod_right]
  show decrypt_file D (iv ++ ct) = Except.ok p
  simp only [decrypt_file, htake, hdrop]
  rw [if_neg (show ¬ iv.length ≠ 16 by rw [hiv]; simp)]
  rw [if_neg (show ¬ ct.length % 16 ≠ 0 by rw [hmod0]; simp)]
  rw [hdec, hflatchunks, unpad_pad]

/-- C1 witness: the round-trip evaluated with the identity block cipher, a
zero IV and the two-byte plaintext `[104, 105]`. -/
theorem C1_roundtrip_witness :
    (List.replicate 16 0 : List Nat).length = 16 ∧
    decrypt_file id (encrypt_file id (List.replicate 16 0) [104, 105]) =
      Except.ok [104, 105] :=
  ⟨by simp,
   C1_roundtrip id id (fun _ hb => hb) (fun _ _ => rfl) (List.replicate 16 0) (by simp)
     [104, 105]⟩

/-- C2 counterexample: a 16-byte decrypted buffer whose final byte is `0`
(outside `[1,16]`): the claim says padding removal fails with a
`PaddingError`, but `_unpad_data` raises nothing and returns the empty byte
string. -/
theorem C2_counterexample :
    (List.replicate 15 65 ++ [0] : List Nat).getLast? = some 0 ∧
    ¬ (1 ≤ 0 ∧ 0 ≤ 16) ∧
    unpad_data (List.replicate 15 65 ++ [0]) = some [] := by
  decide

/-- C2 (amended): padding removal reads the last byte `p` and returns the
input with its last `p` bytes removed (the empty sequence when `p = 0` or
`p` exceeds the length); it validates nothing and never fails on non-empty
input. -/
theorem C2_unpad_lenient (data : List Nat) (p : Nat) (h : data.getLast? = some p) :
    unpad_data data = some (if p = 0 then [] else data.take (data.length - p)) := by
  have h1 : unpad_data data = some (pySliceDropLast data p) := by rw [unpad_data, h]
  rw [h1, pySliceDropLast]

/-- C2 witness: the amended behaviour evaluated on `[3, 1]`, whose final byte
`1` strips one byte. -/
theorem C2_unpad_lenient_witness :
    ([3, 1] : List Nat).getLast? = some 1 ∧
    unpad_data [3, 1] =
      some (if 1 = 0 then [] else ([3, 1] : List Nat).take (([3, 1] : List Nat).length - 1)) :=
  ⟨by decide, C2_unpad_lenient [3, 1] 1 (by decide)⟩

/-- C3: an envelope shorter than 16 bytes is rejected (the CBC mode refuses
the short IV), an envelope whose length minus 16 is not a multiple of 16 is
rejected (the cipher refuses non-block-aligned data), and a well-formed
envelope is processed as its first 16 bytes (the IV) against the remaining
bytes (the ciphertext). -/
theorem C3_format_errors (D : List Nat → List Nat) (envelope : List Nat) :
    (envelope.length < 16 → decrypt_file D envelope = Except.error DecryptError.invalidIVSize) ∧
    (16 ≤ envelope.length → (envelope.length - 16) % 16 ≠ 0 →
      decrypt_file D envelope = Except.error DecryptError.notBlockAligned) ∧
    (16 ≤ envelope.length → (envelope.length - 16) % 16 = 0 →
      decrypt_file D envelope =
        match unpad_data ((cbc_decrypt D (envelope.take 16) (chunks (envelope.drop 16))).flatten) with
        | none => Except.error DecryptError.emptyData
        | some unpadded => Except.ok unpadded) := by
  refine ⟨?_, ?_, ?_⟩
  · intro hlt
    simp only [decrypt_file]
    rw [if_pos (show (envelope.take 16).length ≠ 16 by
      simp only [List.length_take]; omega)]
  · intro h16 hmod
    simp only [decrypt_file]
    rw [if_neg (show ¬ (envelope.take 16).length ≠ 16 by
      simp only [List.length_take]; omega)]
    rw [if_pos (show (envelope.drop 16).length % 16 ≠ 0 by
      simp only [List.length_drop]; exact hmod)]
  · intro h16 hmod
    simp only [decrypt_file]
    rw [if_neg (show ¬ (envelope.take 16).length ≠ 16 by
      simp only [List.length_take]; omega)]
    rw [if_neg (show ¬ (envelope.drop 16).length % 16 ≠ 0 by
      simp only [List.length_drop]; omega)]

/-- C3 witness: the three branches evaluated on concrete envelopes of
lengths 1 (too short), 20 (not block-aligned) and 16 (well-formed but with
an empty ciphertext, so unpadding the empty buffer fails). -/
theorem C3_format_errors_witness :
    decrypt_file id [0] = Except.error DecryptError.invalidIVSize ∧
    decrypt_file id (List.replicate 20 0) = Except.error DecryptError.notBlockAligned ∧
    decrypt_file id (List.replicate 16 0) = Except.error DecryptError.emptyData := by
  refine ⟨(C3_format_errors id [0]).1 (by simp), ?_, ?_⟩
  · exact (C3_format_errors id (List.replicate 20 0)).2.1 (by simp) (by simp)
  · have h := (C3_format_errors id (List.replicate 16 0)).2.2 (by simp) (by simp)
    rw [h]
    rfl

/-- C4: under any length-preserving 16-byte block cipher, the envelope for a
plaintext `p` has length exactly `16 + 16 * (p.length / 16 + 1)`, hence is
never shorter than 32 bytes. -/
theorem C4_envelope_length (E : List Nat → List Nat)
    (hE : ∀ b : List Nat, b.length = 16 → (E b).length = 16)
    (iv : List Nat) (hiv : iv.length = 16) (p : List Nat) :
    (encrypt_file E iv p).length = 16 + 16 * (p.length / 16 + 1) ∧
    32 ≤ (encrypt_file E iv p).length := by
  have hpad := pad_data_length p
  obtain ⟨hcount, hblocks⟩ := chunks_blocks_of_aligned (p.length / 16 + 1) (pad_data p) hpad
  obtain ⟨hclen, hcblocks⟩ := cbc_encrypt_blocks E hE (chunks (pad_data p)) iv hiv hblocks
  have hflat := flatten_blocks_length _ hcblocks
  have hlen : (encrypt_file E iv p).length = 16 + 16 * (p.length / 16 + 1) := by
    rw [encrypt_file, List.length_append, hiv, hflat, hclen, hcount]
  exact ⟨hlen, by omega⟩

/-- C4 witness: the envelope length evaluated with the identity block cipher,
a zero IV and a 3-byte plaintext. -/
theorem C4_envelope_length_witness :
    (List.replicate 16 0 : List Nat).length = 16 ∧
    ((encrypt_file id (List.replicate 16 0) [1, 2, 3]).length =
        16 + 16 * (([1, 2, 3] : List Nat).length / 16 + 1) ∧
      32 ≤ (encrypt_file id (List.replicate 16 0) [1, 2, 3]).length) :=
  ⟨by simp,
   C4_envelope_length id (fun _ hb => hb) (List.replicate 16 0) (by simp) [1, 2, 3]⟩

/-- C5: the padding step implements the PKCS#7 rule for block size 16: with
`k = data.length % 16`, it appends `16 - k` bytes of value `16 - k` when
`k ≠ 0` and a full block of 16 bytes of value 16 when `k = 0`; padding is
always between 1 and 16 bytes and always applied. -/
theorem C5_pad_pkcs7 (data : List Nat) :
    pad_data data =
      data ++
        List.replicate (if data.length % 16 = 0 then 16 else 16 - data.length % 16)
          (if data.length % 16 = 0 then 16 else 16 - data.length % 16) ∧
    1 ≤ 16 - data.length % 16 ∧ 16 - data.length % 16 ≤ 16 := by
  have hmod : data.length % 16 < 16 := Nat.mod_lt _ (by omega)
  have hif : (if data.length % 16 = 0 then 16 else 16 - data.length % 16) =
      16 - data.length % 16 := by
    split <;> omega
  rw [hif]
  exact ⟨pad_data_eq data, by omega, by omega⟩

/-- C6: key derivation is deterministic: any `FileEncryptor` object holding a
given identity and secret derives the same key, and that key is exactly the
PBKDF2 output for HMAC-SHA-256, 32-byte length, the UTF-8 identity as salt
and 65536 iterations; under the library guarantee that PBKDF2 returns the
requested number of bytes the key has 32 bytes. -/
theorem C6_derive_deterministic (pbkdf2 : KDFParams → List Nat → List Nat)
    (hlen : ∀ params pw, (pbkdf2 params pw).length = params.length)
    (e s : String) :
    ∃ key : List Nat,
      key = pbkdf2 ⟨HashAlg.SHA256, 32, utf8Bytes e, 65536⟩ (utf8Bytes s) ∧
      key.length = 32 ∧
      ∀ self : FileEncryptor, self.email = some e → self.passphrase = some s →
        derive_key pbkdf2 self = Except.ok (key, self) := by
  refine ⟨pbkdf2 ⟨HashAlg.SHA256, 32, utf8Bytes e, 65536⟩ (utf8Bytes s), rfl, hlen _ _, ?_⟩
  intro self he hp
  obtain ⟨em, pp⟩ := self
  simp only at he hp
  subst he
  subst hp
  rfl

/-- C6 witness: determinism instantiated with a concrete (length-honouring)
PBKDF2 stand-in and the inputs `"a"`, `"b"`. -/
theorem C6_derive_deterministic_witness :
    (∀ (params : KDFParams) (pw : List Nat),
      ((fun (params : KDFParams) (_ : List Nat) => List.replicate params.length 0) params pw).length =
        params.length) ∧
    ∃ key : List Nat,
      key = (fun (params : KDFParams) (_ : List Nat) => List.replicate params.length 0)
          ⟨HashAlg.SHA256, 32, utf8Bytes "a", 65536⟩ (utf8Bytes "b") ∧
      key.length = 32 ∧
      ∀ self : FileEncryptor, self.email = some "a" → self.passphrase = some "b" →
        derive_key (fun (params : KDFParams) (_ : List Nat) => List.replicate params.length 0) self =
          Except.ok (key, self) :=
  ⟨fun params _ => List.length_replicate params.length 0,
   C6_derive_deterministic
     (fun (params : KDFParams) (_ : List Nat) => List.replicate params.length 0)
     (fun params _ => List.length_replicate params.length 0) "a" "b"⟩

/-- C7: key derivation fails exactly when the identity or the secret is
absent (`None`), and performs no other validation: every pair of non-null
strings is accepted. -/
theorem C7_input_validation (pbkdf2 : KDFParams → List Nat → List Nat) :
    (∀ e s : String, ∃ key st, derive_key pbkdf2 ⟨some e, some s⟩ = Except.ok (key, st)) ∧
    (∀ self : FileEncryptor,
      (∃ err, derive_key pbkdf2 self = Except.error err) ↔
        (self.email = none ∨ self.passphrase = none)) := by
  constructor
  · intro e s
    exact ⟨_, _, rfl⟩
  · intro self
    obtain ⟨em, pp⟩ := self
    cases em <;> cases pp <;> simp [derive_key]

/-- C8: evaluation of key derivation at the failing input: after
`_derive_key` completes on the object built from identity
`"user@example.com"` and secret `"hunter2"`, the object's `passphrase` field
still holds the secret — nothing scrubs it on any path, contradicting the
documented clearing of the passphrase. -/
theorem C8_secret_retained (pbkdf2 : KDFParams → List Nat → List Nat) :
    ∃ key : List Nat,
      derive_key pbkdf2 ⟨some "user@example.com", some "hunter2"⟩ =
        Except.ok (key, ⟨some "user@example.com", some "hunter2"⟩) ∧
      (⟨some "user@example.com", some "hunter2"⟩ : FileEncryptor).passphrase =
        some "hunter2" :=
  ⟨_, rfl, rfl⟩

/-- C9: padding removal never raises on non-empty input: it always returns a
value, returns the empty byte string when the final byte is `0`, and returns
the empty byte string when the final byte exceeds the input length. -/
theorem C9_unpad_never_raises (data : List Nat) (h : data ≠ []) :
    (∃ r, unpad_data data = some r) ∧
    (data.getLast? = some 0 → unpad_data data = some []) ∧
    (∀ p, data.getLast? = some p → data.length < p → unpad_data data = some []) := by
  obtain ⟨p, hp⟩ : ∃ p, data.getLast? = some p := by
    cases hgl : data.getLast? with
    | none => exact absurd (List.getLast?_eq_none_iff.mp hgl) h
    | some p => exact ⟨p, rfl⟩
  refine ⟨⟨pySliceDropLast data p, by rw [unpad_data, hp]⟩, ?_, ?_⟩
  · intro h0
    rw [unpad_data, h0]
    simp [pySliceDropLast]
  · intro q hq hlen
    have h1 : unpad_data data = some (pySliceDropLast data q) := by rw [unpad_data, hq]
    rw [h1, pySliceDropLast]
    rw [if_neg (show ¬ q = 0 by omega)]
    rw [show data.length - q = 0 by omega, List.take_zero]

/-- C9 witness: the lenient unpadding evaluated on the non-empty input `[0]`,
whose final byte `0` yields the empty byte string without an error. -/
theorem C9_unpad_never_raises_witness :
    (([0] : List Nat) ≠ []) ∧
    ((∃ r, unpad_data [0] = some r) ∧
      (([0] : List Nat).getLast? = some 0 → unpad_data [0] = some []) ∧
      (∀ p, ([0] : List Nat).getLast? = some p → ([0] : List Nat).length < p →
        unpad_data [0] = some [])) :=
  ⟨by decide, C9_unpad_never_raises [0] (by decide)⟩

-- ===== flight selection (alg1/select.py) =====

/-- A flight record as consumed by the selection algorithms: the algorithms
read only the `key` and `price` attributes; `flight_number` stands for the
remaining payload and distinguishes otherwise equal records. -/
structure FlightResult where
  flight_number : Nat
  key : Nat
  price : Int
deriving DecidableEq

/-- Inner loop of `select_lowest_price_flights`: `for j in range(len(flights))`,
skipping `j == i`, replacing `lowest` whenever `flights[j]` has the sought key
and a strictly lower price.  `j` is carried in lockstep with the remaining
records. -/
def inner_scan_go (i : Nat) (key : Nat) : Nat → List FlightResult → FlightResult → FlightResult
  | _, [], lowest => lowest
  | j, other :: rest, lowest =>
    if j = i then inner_scan_go i key (j + 1) rest lowest
    else if other.key = key ∧ other.price < lowest.price then
      inner_scan_go i key (j + 1) rest other
    else inner_scan_go i key (j + 1) rest lowest

/-- Inner loop of the quadratic scan started at index 0. -/
def inner_scan (flights : List FlightResult) (i : Nat) (key : Nat)
    (lowest : FlightResult) : FlightResult :=
  inner_scan_go i key 0 flights lowest

/-- Outer loop of `select_lowest_price_flights`: `for i, record in enumerate(...)`,
skipping keys already processed, otherwise appending the result of the inner
scan and marking the key processed. -/
def select_go (flights : List FlightResult) :
    Nat → List FlightResult → List Nat → List FlightResult → List FlightResult
  | _, [], _, result_list => result_list
  | i, record :: rest, processed_keys, result_list =>
    if record.key ∈ processed_keys then
      select_go flights (i + 1) rest processed_keys result_list
    else
      select_go flights (i + 1) rest (record.key :: processed_keys)
        (result_list ++ [inner_scan flights i record.key record])

/-- select_lowest_price_flights (quadratic scan, no maps); the elapsed-time
component of the Python return value is not modelled. -/
def select_lowest_price_flights (flight_results : List FlightResult) : List FlightResult :=
  select_go flight_results 0 flight_results [] []

/-- Lookup in an insertion-ordered association list (Python `dict` access:
`map[key]` / `key in map`). -/
def map_lookup : List (Nat × FlightResult) → Nat → Option FlightResult
  | [], _ => none
  | (k0, r0) :: rest, k => if k0 = k then some r0 else map_lookup rest k

/-- Write to an insertion-ordered association list (Python `dict` assignment:
re-assigning an existing key keeps its position, a new key is appended). -/
def map_update : List (Nat × FlightResult) → Nat → FlightResult → List (Nat × FlightResult)
  | [], k, r => [(k, r)]
  | (k0, r0) :: rest, k, r =>
    if k0 = k then (k, r) :: rest else (k0, r0) :: map_update rest k r

/-- Loop body of `select_lowest_price_flights_map`: store the record if its
key is absent or its price is strictly lower than the stored one. -/
def map_step (m : List (Nat × FlightResult)) (record : FlightResult) :
    List (Nat × FlightResult) :=
  match map_lookup m record.key with
  | none => map_update m record.key record
  | some cur => if record.price < cur.price then map_update m record.key record else m

/-- select_lowest_price_flights_map: fold the records into the dict and
return `list(map.values())` (values in key-insertion order). -/
def select_lowest_price_flights_map (flight_results : List FlightResult) : List FlightResult :=
  (flight_results.foldl map_step []).map Prod.snd

/-- Stable insertion of a record into a list sorted by `key` (the record goes
before the first element whose key is not smaller), modelling the stable
ascending sort of Python `sorted(..., key=lambda r: r.key)`. -/
def insort (r : FlightResult) : List FlightResult → List FlightResult
  | [] => [r]
  | x :: xs => if r.key ≤ x.key then r :: x :: xs else x :: insort r xs

/-- Stable sort by `key`, modelling Python `sorted(flight_results, key=lambda r: r.key)`
(sorted ascending by key, original order preserved among equal keys). -/
def sort_by_key (l : List FlightResult) : List FlightResult :=
  l.foldr insort []

/-- Sweep loop of `select_lowest_price_flights_sort_sweep` over the sorted
list, carrying `result_list`, `prev_key` and `lowest_record`. -/
def sweep_go : List FlightResult → List FlightResult → Option Nat → Option FlightResult →
    List FlightResult
  | [], result_list, _, lowest =>
    (match lowest with
     | none => result_list
     | some lr => result_list ++ [lr])
  | record :: rest, result_list, prev_key, lowest =>
    if some record.key ≠ prev_key then
      match lowest with
      | none => sweep_go rest result_list (some record.key) (some record)
      | some lr => sweep_go rest (result_list ++ [lr]) (some record.key) (some record)
    else
      match lowest with
      | none => sweep_go rest result_list prev_key lowest
      | some lr =>
        if record.price < lr.price then sweep_go rest result_list prev_key (some record)
        else sweep_go rest result_list prev_key lowest

/-- select_lowest_price_flights_sort_sweep: sort by key, then sweep the
groups of equal keys keeping the cheapest record of each. -/
def select_lowest_price_flights_sort_sweep (flight_results : List FlightResult) :
    List FlightResult :=
  sweep_go (sort_by_key flight_results) [] none none

-- ===== specification-side definitions for the selection claim =====

/-- Modelled from the claim wording: the distinct keys of a record list in
order of first occurrence, given the keys already seen. -/
def spec_keys : List FlightResult → List Nat → List Nat
  | [], _ => []
  | r :: rest, seen =>
    if r.key ∈ seen then spec_keys rest seen else r.key :: spec_keys rest (r.key :: seen)

/-- Left fold keeping the current record unless a strictly cheaper one
appears (so the earliest record of minimal price wins). -/
def fold_min (lowest : FlightResult) (g : List FlightResult) : FlightResult :=
  g.foldl (fun low r => if r.price < low.price then r else low) lowest

/-- Modelled from the claim wording: the earliest record of a given key
attaining that key's minimal price (`none` when the key does not occur). -/
def best_for (l : List FlightResult) (k : Nat) : Option FlightResult :=
  (l.filter (fun r => decide (r.key = k))).find?
    (fun r => (l.filter (fun r2 => decide (r2.key = k))).all
      (fun r2 => decide (r.price ≤ r2.price)))

/-- Total variant of `best_for` used to state the association-list invariant
of the map algorithm (junk value for absent keys, never consulted there). -/
def get_best (l : List FlightResult) (k : Nat) : FlightResult :=
  match l.filter (fun r => decide (r.key = k)) with
  | [] => ⟨0, 0, 0⟩
  | c :: cs => fold_min c cs

-- ===== helper lemmas: fold_min and earliest-minimal =====

lemma fold_min_nil (low : FlightResult) : fold_min low [] = low := rfl

lemma fold_min_cons (low y : FlightResult) (g : List FlightResult) :
    fold_min low (y :: g) = fold_min (if y.price < low.price then y else low) g := rfl

lemma fold_min_concat (low x : FlightResult) (g : List FlightResult) :
    fold_min low (g ++ [x]) =
      (if x.price < (fold_min low g).price then x else fold_min low g) := by
  rw [fold_min, List.foldl_concat]
  rfl

lemma fold_min_mem (g : List FlightResult) :
    ∀ low : FlightResult, fold_min low g ∈ low :: g := by
  induction g with
  | nil => intro low; simp [fold_min_nil]
  | cons y g ih =>
    intro low
    rw [fold_min_cons]
    rcases List.mem_cons.mp (ih (if y.price < low.price then y else low)) with h | h
    · rw [h]
      split <;> simp
    · simp [h]

lemma fold_min_le (g : List FlightResult) :
    ∀ low : FlightResult, ∀ x ∈ low :: g, (fold_min low g).price ≤ x.price := by
  induction g with
  | nil =>
    intro low x hx
    rcases List.mem_cons.mp hx with h | h
    · rw [fold_min_nil, h]
    · simp at h
  | cons y g ih =>
    intro low x hx
    rw [fold_min_cons]
    have hlow' : (if y.price < low.price then y else low).price ≤ low.price := by
      split <;> omega
    have hy' : (if y.price < low.price then y else low).price ≤ y.price := by
      split <;> omega
    have hself := ih (if y.price < low.price then y else low) _
      (List.mem_cons_self _ _)
    rcases List.mem_cons.mp hx with h | h
    · rw [h]; omega
    rcases List.mem_cons.mp h with h2 | h2
    · rw [h2]; omega
    · exact ih _ x (List.mem_cons_of_mem _ h2)

lemma fold_min_decomp (g : List FlightResult) :
    ∀ low : FlightResult, ∃ u v : List FlightResult,
      low :: g = u ++ fold_min low g :: v ∧
      ∀ x ∈ u, (fold_min low g).price < x.price := by
  induction g with
  | nil =>
    intro low
    exact ⟨[], [], by simp [fold_min_nil], by simp⟩
  | cons y g ih =>
    intro low
    rw [fold_min_cons]
    obtain ⟨u', v', hdec, hlt⟩ := ih (if y.price < low.price then y else low)
    by_cases hy : y.price < low.price
    · rw [if_pos hy] at hdec hlt ⊢
      refine ⟨low :: u', v', by rw [List.cons_append, ← hdec], ?_⟩
      intro x hx
      rcases List.mem_cons.mp hx with h | h
      · have hle : (fold_min y g).price ≤ y.price :=
          fold_min_le g y y (List.mem_cons_self _ _)
        rw [h]; omega
      · exact hlt x h
    · rw [if_neg hy] at hdec hlt ⊢
      cases u' with
      | nil =>
        simp only [List.nil_append] at hdec
        have hfm : low = fold_min low g := by
          have := congrArg (fun l => l.head?) hdec
          simpa using this
        refine ⟨[], y :: g, ?_, by simp⟩
        rw [List.nil_append, ← hfm]
      | cons z u'' =>
        have hz : low = z := by
          have := congrArg (fun l => l.head?) hdec
          simpa using this
        have hg : g = u'' ++ fold_min low g :: v' := by
          have := congrArg (fun l => l.tail) hdec
          simpa using this
        refine ⟨low :: y :: u'', v', ?_, ?_⟩
        · conv_lhs => rw [hg]
          simp
        · intro x hx
          have hlow : (fold_min low g).price < low.price := by
            have h1 := hlt z (List.mem_cons_self _ _)
            rw [← hz] at h1
            exact h1
          rcases List.mem_cons.mp hx with h | h
          · rw [h]; exact hlow
          rcases List.mem_cons.mp h with h2 | h2
          · rw [h2]; omega
          · exact hlt x (List.mem_cons_of_mem _ h2)

lemma find?_middle (p : FlightResult → Bool) :
    ∀ u : List FlightResult, ∀ fm : FlightResult, ∀ v : List FlightResult,
      (∀ x ∈ u, p x = false) → p fm = true →
      List.find? p (u ++ fm :: v) = some fm := by
  intro u
  induction u with
  | nil =>
    intro fm v _ hfm
    rw [List.nil_append, List.find?_cons, hfm]
  | cons x u ih =>
    intro fm v hu hfm
    rw [List.cons_append, List.find?_cons, hu x (List.mem_cons_self _ _)]
    exact ih fm v (fun y hy => hu y (List.mem_cons_of_mem _ hy)) hfm

lemma find?_min_eq_fold_min (low : FlightResult) (g : List FlightResult) :
    List.find? (fun r => (low :: g).all (fun r2 => decide (r.price ≤ r2.price))) (low :: g) =
      some (fold_min low g) := by
  obtain ⟨u, v, hdec, hlt⟩ := fold_min_decomp g low
  rw [hdec]
  apply find?_middle
  · intro x hx
    apply Bool.eq_false_iff.mpr
    intro hall
    have hfm := (List.all_eq_true.mp hall) (fold_min low g) (by simp)
    simp only [decide_eq_true_eq] at hfm
    have hxlt := hlt x hx
    omega
  · apply List.all_eq_true.mpr
    intro x hx
    simp only [decide_eq_true_eq]
    exact fold_min_le g low x (by rw [hdec]; exact hx)

lemma best_for_of_decomp (l : List FlightResult) (k : Nat) (c : FlightResult)
    (cs : List FlightResult) (hf : l.filter (fun r => decide (r.key = k)) = c :: cs) :
    best_for l k = some (fold_min c cs) := by
  rw [best_for, hf]
  exact find?_min_eq_fold_min c cs

-- ===== helper lemmas: inner scan =====

lemma inner_scan_go_past (i key : Nat) :
    ∀ rest : List FlightResult, ∀ j : Nat, ∀ low : FlightResult, i < j →
      inner_scan_go i key j rest low =
        fold_min low (rest.filter (fun o => decide (o.key = key))) := by
  intro rest
  induction rest with
  | nil => intro j low _; rfl
  | cons o rest ih =>
    intro j low hij
    rw [inner_scan_go, if_neg (by omega : ¬ j = i)]
    by_cases ho : o.key = key
    · rw [List.filter_cons_of_pos (by simp [ho]), fold_min_cons]
      by_cases hp : o.price < low.price
      · rw [if_pos ⟨ho, hp⟩, if_pos hp]
        exact ih (j + 1) o (by omega)
      · rw [if_neg (by tauto), if_neg hp]
        exact ih (j + 1) low (by omega)
    · rw [List.filter_cons_of_neg (by simp [ho])]
      rw [if_neg (by tauto)]
      exact ih (j + 1) low (by omega)

lemma inner_scan_go_split (key : Nat) :
    ∀ pre : List FlightResult, ∀ r : FlightResult, ∀ post : List FlightResult,
      ∀ j : Nat, ∀ low : FlightResult,
      (∀ x ∈ pre, x.key ≠ key) →
      inner_scan_go (j + pre.length) key j (pre ++ r :: post) low =
        fold_min low (post.filter (fun o => decide (o.key = key))) := by
  intro pre
  induction pre with
  | nil =>
    intro r post j low _
    rw [List.nil_append, inner_scan_go]
    simp only [List.length_nil, Nat.add_zero]
    rw [if_pos trivial]
    exact inner_scan_go_past _ key post (j + 1) low (by omega)
  | cons x pre ih =>
    intro r post j low hpre
    rw [List.cons_append, inner_scan_go]
    rw [if_neg (by simp only [List.length_cons]; omega : ¬ j = j + (x :: pre).length)]
    rw [if_neg (by
      have := hpre x (List.mem_cons_self _ _)
      tauto)]
    have heq : j + (x :: pre).length = (j + 1) + pre.length := by
      simp only [List.length_cons]; omega
    rw [heq]
    exact ih r post (j + 1) low (fun y hy => hpre y (List.mem_cons_of_mem _ hy))

lemma inner_scan_split (pre : List FlightResult) (r : FlightResult)
    (post : List FlightResult) (hpre : ∀ x ∈ pre, x.key ≠ r.key) :
    inner_scan (pre ++ r :: post) pre.length r.key r =
      fold_min r (post.filter (fun o => decide (o.key = r.key))) := by
  rw [inner_scan]
  have := inner_scan_go_split r.key pre r post 0 r hpre
  simpa using this

-- ===== helper lemmas: spec_keys =====

lemma spec_keys_mem : ∀ (s : List FlightResult) (seen : List Nat) (k : Nat),
    k ∈ spec_keys s seen ↔ k ∈ s.map (fun r => r.key) ∧ k ∉ seen := by
  intro s
  induction s with
  | nil => intro seen k; simp [spec_keys]
  | cons r rest ih =>
    intro seen k
    rw [spec_keys]
    by_cases hr : r.key ∈ seen
    · rw [if_pos hr, ih]
      simp only [List.map_cons, List.mem_cons]
      constructor
      · rintro ⟨h1, h2⟩
        exact ⟨Or.inr h1, h2⟩
      · rintro ⟨h1 | h1, h2⟩
        · exact absurd (by rw [h1]; exact hr) h2
        · exact ⟨h1, h2⟩
    · rw [if_neg hr]
      simp only [List.mem_cons, List.map_cons]
      rw [ih]
      simp only [List.mem_cons]
      constructor
      · rintro (h | ⟨h1, h2⟩)
        · refine ⟨Or.inl h, ?_⟩
          intro hk
          exact hr (by rw [← h]; exact hk)
        · exact ⟨Or.inr h1, fun hk => h2 (Or.inr hk)⟩
      · rintro ⟨h1 | h1, h2⟩
        · exact Or.inl h1
        · by_cases he : k = r.key
          · exact Or.inl he
          · refine Or.inr ⟨h1, ?_⟩
            rintro (a | b)
            · exact he a
            · exact h2 b

lemma spec_keys_nodup : ∀ (s : List FlightResult) (seen : List Nat),
    (spec_keys s seen).Nodup := by
  intro s
  induction s with
  | nil => intro seen; simp [spec_keys]
  | cons r rest ih =>
    intro seen
    rw [spec_keys]
    split
    · exact ih seen
    · refine List.nodup_cons.mpr ⟨?_, ih _⟩
      intro hmem
      exact ((spec_keys_mem rest (r.key :: seen) r.key).mp hmem).2 (List.mem_cons_self _ _)

lemma spec_keys_append_seen : ∀ (a b : List FlightResult) (seen : List Nat),
    (∀ x ∈ a, x.key ∈ seen) → spec_keys (a ++ b) seen = spec_keys b seen := by
  intro a
  induction a with
  | nil => intro b seen _; rfl
  | cons x a ih =>
    intro b seen h
    rw [List.cons_append, spec_keys, if_pos (h x (List.mem_cons_self _ _))]
    exact ih b seen (fun y hy => h y (List.mem_cons_of_mem _ hy))

lemma spec_keys_seen_congr : ∀ (s : List FlightResult) (seen1 seen2 : List Nat),
    (∀ k ∈ s.map (fun r => r.key), (k ∈ seen1 ↔ k ∈ seen2)) →
    spec_keys s seen1 = spec_keys s seen2 := by
  intro s
  induction s with
  | nil => intro _ _ _; rfl
  | cons r rest ih =>
    intro seen1 seen2 h
    rw [spec_keys, spec_keys]
    have hr := h r.key (by simp)
    by_cases h1 : r.key ∈ seen1
    · rw [if_pos h1, if_pos (hr.mp h1)]
      exact ih seen1 seen2 (fun k hk => h k (by simp [hk]))
    · rw [if_neg h1, if_neg (fun h2 => h1 (hr.mpr h2))]
      congr 1
      apply ih
      intro k hk
      simp only [List.mem_cons]
      exact or_congr Iff.rfl (h k (by simp [hk]))

lemma spec_keys_concat : ∀ (l : List FlightResult) (r : FlightResult) (seen : List Nat),
    spec_keys (l ++ [r]) seen =
      spec_keys l seen ++
        (if r.key ∈ seen ∨ r.key ∈ l.map (fun v => v.key) then [] else [r.key]) := by
  intro l
  induction l with
  | nil =>
    intro r seen
    by_cases h : r.key ∈ seen
    · simp [spec_keys, h]
    · simp [spec_keys, h]
  | cons x l ih =>
    intro r seen
    rw [List.cons_append]
    rw [spec_keys, spec_keys]
    by_cases hx : x.key ∈ seen
    · rw [if_pos hx, if_pos hx, ih]
      have hcond : (r.key ∈ seen ∨ r.key ∈ (x :: l).map (fun v => v.key)) ↔
          (r.key ∈ seen ∨ r.key ∈ l.map (fun v => v.key)) := by
        simp only [List.map_cons, List.mem_cons]
        constructor
        · rintro (a | e | b)
          · exact Or.inl a
          · rw [e]
            exact Or.inl hx
          · exact Or.inr b
        · rintro (a | b)
          · exact Or.inl a
          · exact Or.inr (Or.inr b)
      congr 1
      exact if_congr hcond.symm rfl rfl
    · rw [if_neg hx, if_neg hx, ih, List.cons_append]
      congr 2
      have hcond2 : (r.key ∈ (x.key :: seen) ∨ r.key ∈ l.map (fun v => v.key)) ↔
          (r.key ∈ seen ∨ r.key ∈ (x :: l).map (fun v => v.key)) := by
        simp only [List.map_cons, List.mem_cons]
        tauto
      exact if_congr hcond2 rfl rfl

-- ===== helper lemmas: quadratic scan equals the earliest-minimal selection =====

lemma select_go_spec : ∀ (rest pre : List FlightResult) (processed : List Nat)
    (result_list : List FlightResult) (flights : List FlightResult),
    flights = pre ++ rest → (∀ x ∈ pre, x.key ∈ processed) →
    select_go flights pre.length rest processed result_list =
      result_list ++ (spec_keys rest processed).filterMap (best_for flights) := by
  intro rest
  induction rest with
  | nil =>
    intro pre processed result_list flights _ _
    simp [select_go, spec_keys]
  | cons r rest ih =>
    intro pre processed result_list flights hfl hinv
    rw [select_go, spec_keys]
    by_cases hr : r.key ∈ processed
    · rw [if_pos hr, if_pos hr]
      have h1 : pre.length + 1 = (pre ++ [r]).length := by simp
      rw [h1]
      rw [ih (pre ++ [r]) processed result_list flights (by rw [hfl]; simp)
        (by
          intro x hx
          rcases List.mem_append.mp hx with h | h
          · exact hinv x h
          · simp only [List.mem_singleton] at h
            rw [h]
            exact hr)]
    · rw [if_neg hr, if_neg hr]
      have hpre_ne : ∀ x ∈ pre, x.key ≠ r.key := by
        intro x hx he
        exact hr (by rw [← he]; exact hinv x hx)
      have hscan : inner_scan flights pre.length r.key r =
          fold_min r (rest.filter (fun o => decide (o.key = r.key))) := by
        rw [hfl]
        exact inner_scan_split pre r rest hpre_ne
      have hfilter : flights.filter (fun o => decide (o.key = r.key)) =
          r :: rest.filter (fun o => decide (o.key = r.key)) := by
        rw [hfl, List.filter_append]
        rw [List.filter_eq_nil_iff.mpr (by intro a ha; simp [hpre_ne a ha])]
        rw [List.nil_append, List.filter_cons_of_pos (by simp)]
      have hbest : best_for flights r.key =
          some (fold_min r (rest.filter (fun o => decide (o.key = r.key)))) :=
        best_for_of_decomp flights r.key _ _ hfilter
      have h1 : pre.length + 1 = (pre ++ [r]).length := by simp
      rw [h1]
      rw [ih (pre ++ [r]) (r.key :: processed) _ flights (by rw [hfl]; simp)
        (by
          intro x hx
          rcases List.mem_append.mp hx with h | h
          · exact List.mem_cons_of_mem _ (hinv x h)
          · simp only [List.mem_singleton] at h
            rw [h]
            exact List.mem_cons_self _ _)]
      rw [List.filterMap_cons, hbest]
      simp [hscan, List.append_assoc]

lemma quad_eq_spec (l : List FlightResult) :
    select_lowest_price_flights l = (spec_keys l []).filterMap (best_for l) := by
  rw [select_lowest_price_flights]
  have h := select_go_spec l [] [] [] l (by simp) (by simp)
  simpa using h

-- ===== helper lemmas: map algorithm =====

lemma map_step_found (m : List (Nat × FlightResult)) (record cur : FlightResult)
    (h : map_lookup m record.key = some cur) :
    map_step m record =
      if record.price < cur.price then map_update m record.key record else m := by
  rw [map_step, h]

lemma map_step_missing (m : List (Nat × FlightResult)) (record : FlightResult)
    (h : map_lookup m record.key = none) :
    map_step m record = map_update m record.key record := by
  rw [map_step, h]

lemma map_update_absent : ∀ (m : List (Nat × FlightResult)) (k : Nat) (r : FlightResult),
    (∀ e ∈ m, e.1 ≠ k) → map_update m k r = m ++ [(k, r)] := by
  intro m
  induction m with
  | nil => intro k r _; rfl
  | cons e rest ih =>
    intro k r h
    obtain ⟨k0, r0⟩ := e
    rw [map_update, if_neg (h (k0, r0) (List.mem_cons_self _ _))]
    rw [ih k r (fun e he => h e (List.mem_cons_of_mem _ he)), List.cons_append]

lemma map_lookup_keys (g : Nat → FlightResult) :
    ∀ (K : List Nat) (k : Nat),
      map_lookup (K.map (fun k0 => (k0, g k0))) k = if k ∈ K then some (g k) else none := by
  intro K
  induction K with
  | nil => intro k; simp [map_lookup]
  | cons k0 K ih =>
    intro k
    rw [List.map_cons, map_lookup]
    by_cases h : k0 = k
    · subst h
      rw [if_pos rfl, if_pos (List.mem_cons_self _ _)]
    · rw [if_neg h, ih]
      by_cases hk : k ∈ K
      · rw [if_pos hk, if_pos (List.mem_cons_of_mem _ hk)]
      · rw [if_neg hk, if_neg (by
          intro hmem
          rcases List.mem_cons.mp hmem with a | b
          · exact h a.symm
          · exact hk b)]

lemma map_update_keys (g : Nat → FlightResult) :
    ∀ (K : List Nat) (k : Nat) (r : FlightResult), K.Nodup → k ∈ K →
      map_update (K.map (fun k0 => (k0, g k0))) k r =
        K.map (fun k0 => (k0, if k0 = k then r else g k0)) := by
  intro K
  induction K with
  | nil =>
    intro k r _ h
    simp at h
  | cons k0 K ih =>
    intro k r hnd hk
    rw [List.map_cons, map_update, List.map_cons]
    by_cases h : k0 = k
    · subst h
      have hnotin : k0 ∉ K := (List.nodup_cons.mp hnd).1
      rw [if_pos rfl, if_pos rfl]
      congr 1
      apply List.map_congr_left
      intro a ha
      rw [if_neg (fun he : a = k0 => hnotin (he ▸ ha))]
    · have hkK : k ∈ K := by
        rcases List.mem_cons.mp hk with a | b
        · exact absurd a.symm h
        · exact b
      rw [if_neg h, if_neg h, ih k r (List.nodup_cons.mp hnd).2 hkK]

lemma filter_concat (l : List FlightResult) (r : FlightResult) (p : FlightResult → Bool) :
    (l ++ [r]).filter p = l.filter p ++ if p r then [r] else [] := by
  rw [List.filter_append]
  congr 1
  rw [List.filter_cons]
  by_cases h : p r
  · simp [h]
  · simp [h]

lemma get_best_concat_other (l : List FlightResult) (r : FlightResult) (k : Nat)
    (h : ¬ r.key = k) : get_best (l ++ [r]) k = get_best l k := by
  rw [get_best, get_best, filter_concat, if_neg (by simp [h]), List.append_nil]

lemma get_best_concat_new (l : List FlightResult) (r : FlightResult)
    (h : l.filter (fun x => decide (x.key = r.key)) = []) :
    get_best (l ++ [r]) r.key = r := by
  rw [get_best, filter_concat, h, if_pos (by simp), List.nil_append]
  rfl

lemma get_best_concat_same (l : List FlightResult) (r c : FlightResult)
    (cs : List FlightResult)
    (h : l.filter (fun x => decide (x.key = r.key)) = c :: cs) :
    get_best (l ++ [r]) r.key =
      (if r.price < (get_best l r.key).price then r else get_best l r.key) := by
  have hg : get_best l r.key = fold_min c cs := by rw [get_best, h]
  rw [hg, get_best, filter_concat, h, if_pos (by simp), List.cons_append]
  show fold_min c (cs ++ [r]) = _
  rw [fold_min_concat]

lemma filter_key_ne_nil (l : List FlightResult) (k : Nat)
    (h : k ∈ l.map (fun r => r.key)) :
    ∃ c cs, l.filter (fun x => decide (x.key = k)) = c :: cs := by
  obtain ⟨r, hr, hk⟩ := List.mem_map.mp h
  have hmem : r ∈ l.filter (fun x => decide (x.key = k)) :=
    List.mem_filter.mpr ⟨hr, by simp [hk]⟩
  cases hf : l.filter (fun x => decide (x.key = k)) with
  | nil => rw [hf] at hmem; simp at hmem
  | cons c cs => exact ⟨c, cs, rfl⟩

lemma best_for_eq_get_best (l : List FlightResult) (k : Nat)
    (h : k ∈ l.map (fun r => r.key)) : best_for l k = some (get_best l k) := by
  obtain ⟨c, cs, hf⟩ := filter_key_ne_nil l k h
  rw [best_for_of_decomp l k c cs hf, get_best, hf]

lemma map_fold_struct (l : List FlightResult) :
    l.foldl map_step [] =
      (spec_keys l []).map (fun k => (k, get_best l k)) := by
  induction l using List.reverseRecOn with
  | nil => rfl
  | append_singleton l r ih =>
    rw [List.foldl_concat, ih, spec_keys_concat]
    by_cases hmem : r.key ∈ spec_keys l []
    · have hmemmap : r.key ∈ l.map (fun v => v.key) :=
        ((spec_keys_mem l [] r.key).mp hmem).1
      obtain ⟨c, cs, hf⟩ := filter_key_ne_nil l r.key hmemmap
      have hlk : map_lookup ((spec_keys l []).map (fun k0 => (k0, get_best l k0))) r.key =
          some (get_best l r.key) := by
        rw [map_lookup_keys, if_pos hmem]
      rw [if_pos (Or.inr hmemmap), List.append_nil, map_step_found _ _ _ hlk]
      by_cases hp : r.price < (get_best l r.key).price
      · rw [if_pos hp, map_update_keys (fun k0 => get_best l k0) _ r.key r
          (spec_keys_nodup l []) hmem]
        apply List.map_congr_left
        intro a ha
        by_cases hak : a = r.key
        · subst hak
          rw [if_pos rfl]
          rw [get_best_concat_same l r c cs hf, if_pos hp]
        · rw [if_neg hak]
          rw [get_best_concat_other l r a (fun he => hak he.symm)]
      · rw [if_neg hp]
        apply List.map_congr_left
        intro a ha
        by_cases hak : a = r.key
        · subst hak
          rw [get_best_concat_same l r c cs hf, if_neg hp]
        · rw [get_best_concat_other l r a (fun he => hak he.symm)]
    · have hnotmap : r.key ∉ l.map (fun v => v.key) := by
        intro hm
        exact hmem ((spec_keys_mem l [] r.key).mpr ⟨hm, by simp⟩)
      have hlk : map_lookup ((spec_keys l []).map (fun k0 => (k0, get_best l k0))) r.key =
          none := by
        rw [map_lookup_keys, if_neg hmem]
      rw [map_step_missing _ _ hlk]
      rw [map_update_absent _ _ _ (by
        intro e he
        obtain ⟨k0, hk0, he2⟩ := List.mem_map.mp he
        have h1 : e.1 = k0 := by rw [← he2]
        intro hek
        apply hmem
        rw [← hek, h1]
        exact hk0)]
      rw [if_neg (by simp [hnotmap]), List.map_append]
      congr 1
      · apply List.map_congr_left
        intro a ha
        have haK : a ∈ l.map (fun v => v.key) := ((spec_keys_mem l [] a).mp ha).1
        have hne : ¬ a = r.key := fun he => hnotmap (by rw [← he]; exact haK)
        rw [get_best_concat_other l r a (fun he => hne he.symm)]
      · have hfilnil : l.filter (fun x => decide (x.key = r.key)) = [] := by
          rw [List.filter_eq_nil_iff]
          intro a ha
          simp only [decide_eq_true_eq]
          intro he
          exact hnotmap (by rw [← he]; exact List.mem_map_of_mem _ ha)
        simp [get_best_concat_new l r hfilnil]

lemma filterMap_eq_map_of_some (f : Nat → Option FlightResult) (g : Nat → FlightResult) :
    ∀ K : List Nat, (∀ k ∈ K, f k = some (g k)) → K.filterMap f = K.map g := by
  intro K
  induction K with
  | nil => intro _; rfl
  | cons k K ih =>
    intro h
    rw [List.filterMap_cons, h k (List.mem_cons_self _ _), List.map_cons]
    rw [ih (fun a ha => h a (List.mem_cons_of_mem _ ha))]

lemma map_eq_spec (l : List FlightResult) :
    select_lowest_price_flights_map l = (spec_keys l []).filterMap (best_for l) := by
  rw [select_lowest_price_flights_map, map_fold_struct]
  rw [filterMap_eq_map_of_some (best_for l) (get_best l) _ (by
    intro k hk
    exact best_for_eq_get_best l k ((spec_keys_mem l [] k).mp hk).1)]
  rw [List.map_map]
  rfl

-- ===== helper lemmas: stable sort =====

lemma insort_mem : ∀ (s : List FlightResult) (r a : FlightResult),
    a ∈ insort r s ↔ a = r ∨ a ∈ s := by
  intro s
  induction s with
  | nil => intro r a; simp [insort]
  | cons x xs ih =>
    intro r a
    rw [insort]
    by_cases h : r.key ≤ x.key
    · rw [if_pos h]
      simp [List.mem_cons]
    · rw [if_neg h]
      simp only [List.mem_cons, ih]
      tauto

lemma sort_by_key_mem : ∀ (l : List FlightResult) (a : FlightResult),
    a ∈ sort_by_key l ↔ a ∈ l := by
  intro l
  induction l with
  | nil => intro a; simp [sort_by_key]
  | cons x l ih =>
    intro a
    show a ∈ insort x (sort_by_key l) ↔ _
    rw [insort_mem, ih, List.mem_cons]

lemma insort_pairwise : ∀ (s : List FlightResult) (r : FlightResult),
    List.Pairwise (fun a b => a.key ≤ b.key) s →
    List.Pairwise (fun a b => a.key ≤ b.key) (insort r s) := by
  intro s
  induction s with
  | nil => intro r _; simp [insort]
  | cons x xs ih =>
    intro r hp
    obtain ⟨hx, hxs⟩ := List.pairwise_cons.mp hp
    rw [insort]
    by_cases h : r.key ≤ x.key
    · rw [if_pos h]
      refine List.pairwise_cons.mpr ⟨?_, hp⟩
      intro b hb
      rcases List.mem_cons.mp hb with hbx | hbxs
      · rw [hbx]
        exact h
      · exact le_trans h (hx b hbxs)
    · rw [if_neg h]
      refine List.pairwise_cons.mpr ⟨?_, ih r hxs⟩
      intro b hb
      rcases (insort_mem xs r b).mp hb with hbr | hbxs
      · rw [hbr]
        omega
      · exact hx b hbxs

lemma sort_by_key_pairwise : ∀ l : List FlightResult,
    List.Pairwise (fun a b => a.key ≤ b.key) (sort_by_key l) := by
  intro l
  induction l with
  | nil => simp [sort_by_key]
  | cons x l ih =>
    show List.Pairwise _ (insort x (sort_by_key l))
    exact insort_pairwise _ x ih

lemma insort_filter_pos (r : FlightResult) (k : Nat) (hrk : r.key = k) :
    ∀ s : List FlightResult,
      (insort r s).filter (fun o => decide (o.key = k)) =
        r :: s.filter (fun o => decide (o.key = k)) := by
  intro s
  induction s with
  | nil => simp [insort, hrk]
  | cons x xs ih =>
    rw [insort]
    by_cases h : r.key ≤ x.key
    · rw [if_pos h, List.filter_cons_of_pos (by simp [hrk])]
    · have hxk : ¬ x.key = k := by omega
      rw [if_neg h, List.filter_cons_of_neg (by simp [hxk]), ih,
        List.filter_cons_of_neg (by simp [hxk])]

lemma insort_filter_neg (r : FlightResult) (k : Nat) (hrk : ¬ r.key = k) :
    ∀ s : List FlightResult,
      (insort r s).filter (fun o => decide (o.key = k)) =
        s.filter (fun o => decide (o.key = k)) := by
  intro s
  induction s with
  | nil => simp [insort, hrk]
  | cons x xs ih =>
    rw [insort]
    by_cases h : r.key ≤ x.key
    · rw [if_pos h, List.filter_cons_of_neg (by simp [hrk])]
    · rw [if_neg h, List.filter_cons, ih]
      conv_rhs => rw [List.filter_cons]

lemma sort_filter_key (k : Nat) : ∀ l : List FlightResult,
    (sort_by_key l).filter (fun o => decide (o.key = k)) =
      l.filter (fun o => decide (o.key = k)) := by
  intro l
  induction l with
  | nil => rfl
  | cons x l ih =>
    show (insort x (sort_by_key l)).filter _ = _
    by_cases h : x.key = k
    · rw [insort_filter_pos x k h, ih, List.filter_cons_of_pos (by simp [h])]
    · rw [insort_filter_neg x k h, ih, List.filter_cons_of_neg (by simp [h])]

lemma best_for_filter_congr (l1 l2 : List FlightResult) (k : Nat)
    (h : l1.filter (fun o => decide (o.key = k)) = l2.filter (fun o => decide (o.key = k))) :
    best_for l1 k = best_for l2 k := by
  rw [best_for, best_for, h]

-- ===== helper lemmas: sweep =====

lemma dropWhile_head_false (p : FlightResult → Bool) :
    ∀ (l : List FlightResult) (x : FlightResult) (xs : List FlightResult),
      l.dropWhile p = x :: xs → p x = false := by
  intro l
  induction l with
  | nil => intro x xs h; simp [List.dropWhile] at h
  | cons a l ih =>
    intro x xs h
    rw [List.dropWhile_cons] at h
    by_cases ha : p a = true
    · rw [if_pos ha] at h
      exact ih x xs h
    · rw [if_neg ha] at h
      obtain ⟨rfl, rfl⟩ : a = x ∧ l = xs := by
        injection h with h1 h2
        exact ⟨h1, h2⟩
      simpa using ha

/-- The per-run selection a sweep over a list computes: for each maximal
leading run of equal keys, the earliest cheapest record of the run. -/
def runs_select : List FlightResult → List FlightResult
  | [] => []
  | r :: rest =>
    fold_min r (rest.takeWhile (fun o => decide (o.key = r.key))) ::
      runs_select (rest.dropWhile (fun o => decide (o.key = r.key)))
termination_by l => l.length
decreasing_by
  simp only [List.length_cons]
  exact Nat.lt_succ_of_le (List.Sublist.length_le (List.dropWhile_sublist _))

lemma sweep_go_run : ∀ (s : List FlightResult) (result_list : List FlightResult) (k : Nat)
    (lr : FlightResult),
    sweep_go s result_list (some k) (some lr) =
      result_list ++
        fold_min lr (s.takeWhile (fun o => decide (o.key = k))) ::
          runs_select (s.dropWhile (fun o => decide (o.key = k))) := by
  intro s
  induction s with
  | nil =>
    intro res k lr
    simp [sweep_go, fold_min_nil, runs_select]
  | cons record rest ih =>
    intro res k lr
    rw [sweep_go]
    by_cases hk : record.key = k
    · rw [if_neg (show ¬ some record.key ≠ some k by simp [hk])]
      show (if record.price < lr.price then sweep_go rest res (some k) (some record)
            else sweep_go rest res (some k) (some lr)) = _
      rw [List.takeWhile_cons_of_pos (by simp [hk]), List.dropWhile_cons_of_pos (by simp [hk]),
        fold_min_cons]
      by_cases hp : record.price < lr.price
      · rw [if_pos hp, if_pos hp, ih]
      · rw [if_neg hp, if_neg hp, ih]
    · rw [if_pos (show some record.key ≠ some k by simp [hk])]
      show sweep_go rest (res ++ [lr]) (some record.key) (some record) = _
      rw [ih (res ++ [lr]) record.key record]
      rw [List.takeWhile_cons_of_neg (by simp [hk]), List.dropWhile_cons_of_neg (by simp [hk]),
        fold_min_nil, runs_select]
      simp [List.append_assoc]

lemma sweep_go_runs (s : List FlightResult) :
    sweep_go s [] none none = runs_select s := by
  cases s with
  | nil => simp [sweep_go, runs_select]
  | cons r rest =>
    rw [sweep_go, if_pos (by simp)]
    show sweep_go rest [] (some r.key) (some r) = _
    rw [sweep_go_run rest [] r.key r, runs_select]
    simp

lemma runs_sorted : ∀ (n : Nat) (s : List FlightResult), s.length ≤ n →
    List.Pairwise (fun a b => a.key ≤ b.key) s →
    runs_select s = (spec_keys s []).filterMap (best_for s) := by
  intro n
  induction n with
  | zero =>
    intro s hlen _
    have hnil : s = [] := List.eq_nil_of_length_eq_zero (by omega)
    subst hnil
    simp [runs_select, spec_keys]
  | succ n ih =>
    intro s hlen hsort
    cases s with
    | nil => simp [runs_select, spec_keys]
    | cons r rest =>
      obtain ⟨hr_le, hrest_pw⟩ := List.pairwise_cons.mp hsort
      have hrest : rest = rest.takeWhile (fun o => decide (o.key = r.key)) ++
          rest.dropWhile (fun o => decide (o.key = r.key)) :=
        (List.takeWhile_append_dropWhile _ _).symm
      have htk : ∀ x ∈ rest.takeWhile (fun o => decide (o.key = r.key)), x.key = r.key := by
        intro x hx
        have := List.mem_takeWhile_imp hx
        simpa using this
      have hdp_keys : ∀ y ∈ rest.dropWhile (fun o => decide (o.key = r.key)),
          r.key < y.key := by
        cases hdp : rest.dropWhile (fun o => decide (o.key = r.key)) with
        | nil => intro y hy; simp at hy
        | cons d dp =>
          have hdne : ¬ d.key = r.key := by
            have := dropWhile_head_false _ rest d dp hdp
            simpa using this
          have hdmem : d ∈ rest := by
            conv => rw [hrest, hdp]
            simp
          have hdr : r.key < d.key :=
            lt_of_le_of_ne (hr_le d hdmem) (fun he => hdne he.symm)
          have hddp : List.Pairwise (fun a b => a.key ≤ b.key) (d :: dp) := by
            rw [← hdp]
            exact List.Pairwise.sublist (List.dropWhile_sublist _) hrest_pw
          intro y hy
          rcases List.mem_cons.mp hy with h1 | h1
          · rw [h1]
            exact hdr
          · exact lt_of_lt_of_le hdr ((List.pairwise_cons.mp hddp).1 y h1)
      have hdp_len : (rest.dropWhile (fun o => decide (o.key = r.key))).length ≤ n := by
        have h1 := List.Sublist.length_le (List.dropWhile_sublist
          (fun o => decide (o.key = r.key)) (l := rest))
        simp only [List.length_cons] at hlen
        omega
      have hdp_pw : List.Pairwise (fun a b => a.key ≤ b.key)
          (rest.dropWhile (fun o => decide (o.key = r.key))) :=
        List.Pairwise.sublist (List.dropWhile_sublist _) hrest_pw
      have hIH := ih (rest.dropWhile (fun o => decide (o.key = r.key))) hdp_len hdp_pw
      have hsk : spec_keys rest [r.key] =
          spec_keys (rest.dropWhile (fun o => decide (o.key = r.key))) [] := by
        conv_lhs => rw [hrest]
        rw [spec_keys_append_seen _ _ _ (by
          intro x hx
          rw [htk x hx]
          exact List.mem_cons_self _ _)]
        apply spec_keys_seen_congr
        intro k hk
        obtain ⟨y, hy, hyk⟩ := List.mem_map.mp hk
        have := hdp_keys y hy
        constructor
        · intro hmem
          rcases List.mem_cons.mp hmem with h1 | h1
          · omega
          · simp at h1
        · intro hmem
          simp at hmem
      have hfil_head : (r :: rest).filter (fun o => decide (o.key = r.key)) =
          r :: rest.takeWhile (fun o => decide (o.key = r.key)) := by
        rw [List.filter_cons_of_pos (by simp)]
        congr 1
        conv_lhs => rw [hrest]
        rw [List.filter_append]
        rw [List.filter_eq_self.mpr (by intro a ha; simp [htk a ha])]
        rw [List.filter_eq_nil_iff.mpr (by
          intro a ha
          have := hdp_keys a ha
          simp only [decide_eq_true_eq]
          omega)]
        rw [List.append_nil]
      have hbest_head : best_for (r :: rest) r.key =
          some (fold_min r (rest.takeWhile (fun o => decide (o.key = r.key)))) :=
        best_for_of_decomp _ _ _ _ hfil_head
      have hbest_tail : ∀ k ∈ spec_keys (rest.dropWhile (fun o => decide (o.key = r.key))) [],
          best_for (rest.dropWhile (fun o => decide (o.key = r.key))) k =
            best_for (r :: rest) k := by
        intro k hk
        have hkmem : k ∈ (rest.dropWhile (fun o => decide (o.key = r.key))).map
            (fun v => v.key) := ((spec_keys_mem _ _ _).mp hk).1
        obtain ⟨y, hy, hyk⟩ := List.mem_map.mp hkmem
        have hkgt : r.key < k := by
          rw [← hyk]
          exact hdp_keys y hy
        apply best_for_filter_congr
        rw [List.filter_cons_of_neg (by simp; omega)]
        conv_rhs => rw [hrest]
        rw [List.filter_append]
        have htknil : (rest.takeWhile (fun o => decide (o.key = r.key))).filter
            (fun o => decide (o.key = k)) = [] := by
          rw [List.filter_eq_nil_iff]
          intro a ha
          have := htk a ha
          simp only [decide_eq_true_eq]
          omega
        rw [htknil, List.nil_append]
      rw [runs_select, hIH]
      rw [spec_keys, if_neg (by simp), hsk]
      rw [List.filterMap_cons, hbest_head]
      congr 1
      exact List.filterMap_congr hbest_tail

lemma sweep_eq_spec (l : List FlightResult) :
    select_lowest_price_flights_sort_sweep l =
      (spec_keys (sort_by_key l) []).filterMap (best_for l) := by
  rw [select_lowest_price_flights_sort_sweep, sweep_go_runs]
  rw [runs_sorted (sort_by_key l).length _ (le_refl _) (sort_by_key_pairwise l)]
  apply List.filterMap_congr
  intro k _
  exact best_for_filter_congr _ _ k (sort_filter_key k l)

lemma sweep_perm_quad (l : List FlightResult) :
    List.Perm (select_lowest_price_flights_sort_sweep l) (select_lowest_price_flights l) := by
  rw [sweep_eq_spec, quad_eq_spec]
  apply List.Perm.filterMap
  rw [List.perm_ext_iff_of_nodup (spec_keys_nodup _ _) (spec_keys_nodup _ _)]
  intro k
  rw [spec_keys_mem, spec_keys_mem]
  have hmemiff : k ∈ (sort_by_key l).map (fun r => r.key) ↔ k ∈ l.map (fun r => r.key) := by
    simp only [List.mem_map]
    constructor
    · rintro ⟨a, ha, hk⟩
      exact ⟨a, (sort_by_key_mem l a).mp ha, hk⟩
    · rintro ⟨a, ha, hk⟩
      exact ⟨a, (sort_by_key_mem l a).mpr ha, hk⟩
  rw [hmemiff]

/-- C10: the three selection functions agree: the quadratic scan and the
map-based variant return element-for-element identical lists; the
sort-and-sweep variant returns a permutation of them (the same multiset);
and the common result is, for each distinct key in order of first
occurrence, the earliest record attaining that key's minimal price. -/
theorem C10_select_equivalence (flight_results : List FlightResult) :
    select_lowest_price_flights flight_results =
      select_lowest_price_flights_map flight_results ∧
    List.Perm (select_lowest_price_flights_sort_sweep flight_results)
      (select_lowest_price_flights flight_results) ∧
    select_lowest_price_flights flight_results =
      (spec_keys flight_results []).filterMap (best_for flight_results) :=
  ⟨by rw [quad_eq_spec, map_eq_spec], sweep_perm_quad _, quad_eq_spec _⟩
